import Mathlib

/-!
Verification of the similarity-recommender core of ml_recsys_tools
(ml_recsys_tools/lightfm_tools/similarity_recommenders.py).

Shallow embedding conventions:
* scipy sparse matrices are modelled by `SpMat`: explicit dimensions plus a
  list of stored entries (row, col, value).  Stored entries may hold the
  value 0 (scipy keeps explicit zeros until eliminate_zeros is called);
  the dense reading of a matrix is `SpMat.toFun`, which sums every stored
  entry at a position (scipy duplicate-sum convention).
* floating point values are idealized as rationals; `astype(np.float32)`
  is therefore the identity.
* `np.log10` is irrational-valued, so it is passed in as an explicit
  function parameter `logF`; no claim below depends on its values.
* `np.random.choice` (used by prune_mat only when nnz > 50000 and
  ratio > 0) is passed in as an explicit `sampler` parameter.
-/

namespace MlRecsys

instance {e a : Type _} [DecidableEq e] [DecidableEq a] : DecidableEq (Except e a) := fun x y =>
  match x, y with
  | .error u, .error w =>
    if h : u = w then .isTrue (by rw [h]) else .isFalse (fun hc => h (Except.error.inj hc))
  | .ok u, .ok w =>
    if h : u = w then .isTrue (by rw [h]) else .isFalse (fun hc => h (Except.ok.inj hc))
  | .error _, .ok _ => .isFalse (fun hc => Except.noConfusion hc)
  | .ok _, .error _ => .isFalse (fun hc => Except.noConfusion hc)

/-- A scipy-style sparse matrix: dimensions plus stored (row, col, value)
entries.  Stored entries may carry the value 0. -/
structure SpMat where
  rows : Nat
  cols : Nat
  entries : List (Nat × Nat × ℚ)
deriving DecidableEq

/-- Dense value contributed by a stored-entry list at position (i, j):
the sum of every stored entry at that position. -/
def entriesVal : List (Nat × Nat × ℚ) → Nat → Nat → ℚ
  | [], _, _ => 0
  | (r, c, v) :: es, i, j => (if r = i ∧ c = j then v else 0) + entriesVal es i j

/-- Dense reading of a sparse matrix. -/
def SpMat.toFun (m : SpMat) (i j : Nat) : ℚ :=
  entriesVal m.entries i j

/-- The stored-value array, mirroring the scipy attribute m.data. -/
def SpMat.data (m : SpMat) : List ℚ :=
  m.entries.map (fun e => e.2.2)

/-- np.sum(m.data): sum of all stored values. -/
def SpMat.dataSum (m : SpMat) : ℚ :=
  m.data.sum

/-- np.min over a nonempty value list (0 on the empty list, which the code
never hits because every call site guards on len(data)). -/
def listMin : List ℚ → ℚ
  | [] => 0
  | [v] => v
  | v :: w :: vs => min v (listMin (w :: vs))

/-- np.percentile with the default linear-interpolation method, over
rationals: sort ascending, take position q/100 * (n-1), interpolate. -/
def percentileLin (l : List ℚ) (q : Nat) : ℚ :=
  let s := List.insertionSort (fun a b : ℚ => a ≤ b) l
  let n := s.length
  if n = 0 then 0
  else
    let pos : ℚ := (q : ℚ) * ((n : ℚ) - 1) / 100
    let lo := (Int.floor pos).toNat
    let hi := (Int.ceil pos).toNat
    s.getD lo 0 + (pos - Int.floor pos) * (s.getD hi 0 - s.getD lo 0)

/-- prune_mat from similarity_recommenders.py (inner helper of
interactions_mat_to_cooccurrence_mat).  The Python code zeroes every stored
value strictly below the effective cutoff in place and then calls
eliminate_zeros(), which drops every stored zero.  `sampler` models
np.random.choice, used only when nnz > 50000 and ratio > 0. -/
def pruneCutoffEff (sampler : List ℚ → List ℚ) (m : SpMat) (ratio cutoff : ℚ) : ℚ :=
  if 0 < ratio then
    max cutoff (percentileLin (if 50000 < m.entries.length then sampler m.data else m.data)
      (Int.floor (100 * ratio)).toNat)
  else cutoff

/-- prune_mat from similarity_recommenders.py, continued: the effective
cutoff is the plain cutoff when ratio is 0, the percentile rule above
otherwise. -/
def prune_mat (sampler : List ℚ → List ℚ) (m : SpMat) (ratio cutoff : ℚ) : SpMat :=
  if (ratio = 0 ∧ cutoff = 0) ∨ m.entries = [] then m
  else
    { m with entries :=
        (m.entries.map (fun e =>
          if e.2.2 < pruneCutoffEff sampler m ratio cutoff then (e.1, e.2.1, (0 : ℚ))
          else e)).filter (fun e => e.2.2 ≠ 0) }

/-- The in-place weight transform at the top of first_degree_cooccurrence:
trans_func selects binarize / log10(v+1) / identity, anything else raises
ValueError.  The Python code rebinds mat.data, mutating the caller's
matrix; the transformed matrix is returned so callers can track that. -/
def applyTransFunc (logF : ℚ → ℚ) (trans_func : String) (m : SpMat) :
    Except String SpMat :=
  if trans_func = "ones" then
    .ok { m with entries := m.entries.map (fun e => (e.1, e.2.1, (1 : ℚ))) }
  else if trans_func = "log" then
    .ok { m with entries := m.entries.map (fun e => (e.1, e.2.1, logF e.2.2)) }
  else if trans_func = "none" then
    .ok m
  else
    .error ("Unknown trans_func: " ++ trans_func)

/-- Row-by-column dot product of the dense readings. -/
def dotRC (A B : SpMat) (i j : Nat) : ℚ :=
  ((List.range A.cols).map (fun k => A.toFun i k * B.toFun k j)).sum

/-- Sparse matrix product.  scipy stores the structural-nonzero pattern of
the product; on the nonnegative data produced by this pipeline that
coincides with the value-nonzero pattern used here. -/
def matmul (A B : SpMat) : SpMat :=
  ⟨A.rows, B.cols,
    (List.range A.rows).flatMap (fun i =>
      (List.range B.cols).filterMap (fun j =>
        let v := dotRC A B i j
        if v = 0 then none else some (i, j, v)))⟩

/-- Transpose (mat.T). -/
def SpMat.transpose (m : SpMat) : SpMat :=
  ⟨m.cols, m.rows, m.entries.map (fun e => (e.2.1, e.1, e.2.2))⟩

/-- setdiag(0): scipy writes 0 into every stored diagonal entry, keeping it
stored as an explicit zero. -/
def setdiag0 (m : SpMat) : SpMat :=
  { m with entries := m.entries.map (fun e => if e.1 = e.2.1 then (e.1, e.2.1, (0 : ℚ)) else e) }

/-- Scalar multiplication of the stored values (scalar * csr, and also
the in-place m.data *= c). -/
def scaleData (m : SpMat) (c : ℚ) : SpMat :=
  { m with entries := m.entries.map (fun e => (e.1, e.2.1, e.2.2 * c)) }

/-- Matrix addition: scipy stores the union of the two stored patterns
(cancellation zeros stay stored).  Dimensions are taken from the left
argument (the code only adds equal-shape matrices). -/
def addMat (A B : SpMat) : SpMat :=
  let pos := (A.entries.map (fun e => (e.1, e.2.1)) ++ B.entries.map (fun e => (e.1, e.2.1))).dedup
  ⟨A.rows, A.cols, pos.map (fun p => (p.1, p.2, A.toFun p.1 p.2 + B.toFun p.1 p.2))⟩

/-- first_degree_cooccurrence: transform the interaction weights, form
mat.T * mat, zero the diagonal, downcast (identity here), and prune with
an absolute cutoff when min_cooc > 1.  Returns the co-occurrence matrix
together with the post-transform state of the input matrix (the Python
function mutates its argument). -/
def first_degree_cooccurrence (sampler : List ℚ → List ℚ) (logF : ℚ → ℚ)
    (trans_func : String) (mat : SpMat) (min_cooc : ℚ) :
    Except String (SpMat × SpMat) :=
  match applyTransFunc logF trans_func mat with
  | .error e => .error e
  | .ok mt =>
    let cooc_mat := setdiag0 (matmul mt.transpose mt)
    let cooc_mat := if 1 < min_cooc then prune_mat sampler cooc_mat 0 min_cooc else cooc_mat
    .ok (cooc_mat, mt)

/-- One pass of the higher-degree loop body:
higher += decay^(i+1) * higher * higher, then setdiag(0). -/
def higherDegStep (decay : ℚ) (i : Nat) (h : SpMat) : SpMat :=
  setdiag0 (addMat h (matmul (scaleData h (decay ^ (i + 1))) h))

/-- The for-loop over i in range(degree - 1), applied left to right. -/
def higherDegLoop (decay : ℚ) (h : SpMat) : Nat → SpMat
  | 0 => h
  | n + 1 => higherDegStep decay n (higherDegLoop decay h n)

/-- The higher-degree working matrix just before the final rescale:
a pruned copy of the base expanded degree - 1 times. -/
def higherDegPre (sampler : List ℚ → List ℚ) (base : SpMat) (degree : Nat)
    (prune_ratio decay min_cooccurrence : ℚ) : SpMat :=
  higherDegLoop decay (prune_mat sampler base prune_ratio min_cooccurrence) (degree - 1)

/-- The final rescale:
higher_deg_cooc.data *= total_weight / (np.sum(higher_deg_cooc.data) + 1),
with total_weight the stored-value sum of the base matrix. -/
def higherDegFinal (sampler : List ℚ → List ℚ) (base : SpMat) (degree : Nat)
    (prune_ratio decay min_cooccurrence : ℚ) : SpMat :=
  let h := higherDegPre sampler base degree prune_ratio decay min_cooccurrence
  scaleData h (base.dataSum / (h.dataSum + 1))

/-- L1 norm of row i over the stored values (what sklearn normalize
computes from the sparse storage). -/
def rowNormL1 (m : SpMat) (i : Nat) : ℚ :=
  ((m.entries.filter (fun e => e.1 = i)).map (fun e => |e.2.2|)).sum

/-- sklearn.preprocessing.normalize(m, norm=l1, axis=1): divide every
stored value by its row L1 norm; rows of norm 0 are left untouched. -/
def rowNormalize (m : SpMat) : SpMat :=
  { m with entries := m.entries.map (fun e =>
      if rowNormL1 m e.1 = 0 then e else (e.1, e.2.1, e.2.2 / rowNormL1 m e.1)) }

/-- interactions_mat_to_cooccurrence_mat.  Returns the co-occurrence
matrix together with the post-call state of obs_mat (which the Python
code mutates through the weight transform). -/
def interactions_mat_to_cooccurrence_mat (sampler : List ℚ → List ℚ) (logF : ℚ → ℚ)
    (obs_mat : SpMat) (normalize_items : Bool) (degree : Nat)
    (base_min_cooccurrence prune_ratio decay min_cooccurrence : ℚ)
    (trans_func : String) : Except String (SpMat × SpMat) :=
  match first_degree_cooccurrence sampler logF trans_func obs_mat base_min_cooccurrence with
  | .error e => .error e
  | .ok (cooc_mat_base, obsAfter) =>
    let cooc_mat_base :=
      if 1 < degree then
        addMat cooc_mat_base
          (higherDegFinal sampler cooc_mat_base degree prune_ratio decay min_cooccurrence)
      else cooc_mat_base
    .ok ((if normalize_items then rowNormalize cooc_mat_base else cooc_mat_base), obsAfter)

/-- BaseSimilarityRecommeder._check_no_negatives: if there are stored
values and the smallest is below 0.01, add abs(min - 0.01) to every
stored value in place. -/
def check_no_negatives (m : SpMat) : SpMat :=
  if m.data ≠ [] ∧ listMin m.data < 1 / 100 then
    { m with entries := m.entries.map (fun e => (e.1, e.2.1, e.2.2 + |listMin m.data - 1 / 100|)) }
  else m

/-- The deterministic tie-broken descending order on positions of a score
vector used to model np.argpartition followed by np.argsort: greater
score first, equal scores by position. -/
def rankOrder (v : List ℚ) (i j : Nat) : Prop :=
  v.getD j 0 < v.getD i 0 ∨ (v.getD i 0 = v.getD j 0 ∧ i ≤ j)

instance (v : List ℚ) : DecidableRel (rankOrder v) := fun i j => by
  unfold rankOrder; infer_instance

/-- All positions of the score vector, ordered by descending score.
np.argpartition(v, -n)[-n:] selects n positions of greatest score and
np.argsort then orders that selection by descending score, so the first n
elements of this list realize that composition. -/
def argsortDesc (v : List ℚ) : List Nat :=
  List.insertionSort (rankOrder v) (List.range v.length)

/-- The top-n positions by descending score (n capped at the length). -/
def topNIndices (v : List ℚ) (n : Nat) : List Nat :=
  (argsortDesc v).take (min n v.length)

/-- The summed-similarity score vector of
BaseSimilarityRecommeder._recommend_for_item_inds: column-wise sum of the
rows of the similarity matrix at item_inds, with the positions of
item_inds themselves zeroed when remove_self holds. -/
def sumSimils (simMat : SpMat) (item_inds : List Nat) (remove_self : Bool) : List ℚ :=
  (List.range simMat.cols).map (fun j =>
    if remove_self = true ∧ j ∈ item_inds then 0
    else (item_inds.map (fun i => simMat.toFun i j)).sum)

/-- BaseSimilarityRecommeder._recommend_for_item_inds: aggregate the seed
rows, take n_rec = min(n_rec_unfilt, len) top positions via
argpartition + argsort, return them with their scores. -/
def recommend_for_item_inds (simMat : SpMat) (item_inds : List Nat)
    (n_rec_unfilt : Nat) (remove_self : Bool) : List Nat × List ℚ :=
  let sum_simils := sumSimils simMat item_inds remove_self
  let i_sort := topNIndices sum_simils n_rec_unfilt
  (i_sort, i_sort.map (fun i => sum_simils.getD i 0))

/-- The mutable attributes of a fitted BaseSimilarityRecommeder that the
query operations touch. -/
structure QueryState where
  similarity_mat : SpMat
  train_mat : SpMat
deriving DecidableEq

/-- The state after self._check_no_negatives() has run (it mutates
self.similarity_mat in place). -/
def checkState (s : QueryState) : QueryState :=
  { s with similarity_mat := check_no_negatives s.similarity_mat }

/-- Modelled from the spec: utils.similarity.top_N_sorted_on_sparse is not
under src/; per sections 4.4 and 4.5 of the spec it ranks, for each
queried index, the corresponding row of the given sparse matrix and
returns the top-N column indices with their scores, sorted descending. -/
def top_N_sorted_on_sparse (m : SpMat) (ind n_top : Nat) : List Nat × List ℚ :=
  let v := (List.range m.cols).map (fun j => m.toFun ind j)
  let i_sort := topNIndices v n_top
  (i_sort, i_sort.map (fun i => v.getD i 0))

/-- BaseSimilarityRecommeder.get_similar_items (encoders elided, one entry
per queried index): runs _check_no_negatives, then ranks each queried
row of the similarity matrix.  Returns the post-call state and the
per-index results. -/
def get_similar_items (s : QueryState) (item_inds : List Nat) (n_top : Nat) :
    QueryState × List (List Nat × List ℚ) :=
  let s2 := checkState s
  (s2, item_inds.map (fun ind => top_N_sorted_on_sparse s2.similarity_mat ind n_top))

/-- The stored column indices of row u (scipy row .indices). -/
def rowIndsOf (m : SpMat) (u : Nat) : List Nat :=
  (m.entries.filter (fun e => e.1 = u)).map (fun e => e.2.1)

/-- BaseSimilarityRecommeder._get_recommendations_flat_unfilt (encoders,
chunking and dataframe formatting elided; utils.similarity.
custom_row_func_on_sparse is not under src/ and is modelled from the
spec, section 4.5: for each user it passes the stored indices of that
user's train-matrix row to the row function).  Runs _check_no_negatives,
then ranks _recommend_for_item_inds with remove_self=False over each
user's interacted items. -/
def get_recommendations_flat_unfilt (s : QueryState) (user_inds : List Nat)
    (n_rec_unfilt : Nat) : QueryState × List (List Nat × List ℚ) :=
  let s2 := checkState s
  (s2, user_inds.map (fun u =>
    recommend_for_item_inds s2.similarity_mat (rowIndsOf s2.train_mat u) n_rec_unfilt false))

/-- BaseSimilarityRecommeder.recommend_for_interaction_history (encoders
elided): ranks _recommend_for_item_inds directly on the stored
similarity matrix, with the default remove_self=True and without any
_check_no_negatives call.  The state is returned unchanged. -/
def recommend_for_interaction_history (s : QueryState) (interactions_inds : List Nat)
    (n_rec : Nat) : QueryState × (List Nat × List ℚ) :=
  (s, recommend_for_item_inds s.similarity_mat interactions_inds n_rec true)

/-- UserCoocRecommender._get_recommendations_flat_unfilt (encoders,
chunking and formatting elided; custom_row_func_on_sparse modelled from
the spec as above, here passing the stored indices and data of the
user's similarity row): for each user, sum the train-matrix rows of the
users similar to them, each scaled by the stored similarity weight, and
take the top n positions.  No _check_no_negatives call is made. -/
def userCooc_get_recommendations_flat_unfilt (s : QueryState) (user_inds : List Nat)
    (n_rec_unfilt : Nat) : QueryState × List (List Nat × List ℚ) :=
  (s, user_inds.map (fun u =>
    let rowEntries := s.similarity_mat.entries.filter (fun e => e.1 = u)
    let v := (List.range s.train_mat.cols).map (fun j =>
      (rowEntries.map (fun e => e.2.2 * s.train_mat.toFun e.2.1 j)).sum)
    let i_sort := topNIndices v n_rec_unfilt
    (i_sort, i_sort.map (fun i => v.getD i 0))))

/-- The attributes of an ItemCoocRecommender / UserCoocRecommender that
fit assigns (None before the first fit). -/
structure CoocRecState where
  similarity_mat : Option SpMat
  train_mat : Option SpMat
deriving DecidableEq

/-- ItemCoocRecommender.fit: _prep_for_fit stores the interaction matrix,
then the co-occurrence builder runs on it and the result plus its own
transpose is assigned to similarity_mat.  A ValueError from the builder
propagates before similarity_mat is assigned (second component of the
result); the builder has by then already mutated the train matrix only
through the weight transform, which a raised ValueError precedes. -/
def ItemCoocRecommender.fit (sampler : List ℚ → List ℚ) (logF : ℚ → ℚ)
    (s : CoocRecState) (train_obs : SpMat) (normalize_items : Bool) (degree : Nat)
    (base_min_cooccurrence prune_ratio decay min_cooccurrence : ℚ)
    (trans_func : String) : CoocRecState × Option String :=
  let s1 := { s with train_mat := some train_obs }
  match interactions_mat_to_cooccurrence_mat sampler logF train_obs normalize_items degree
      base_min_cooccurrence prune_ratio decay min_cooccurrence trans_func with
  | .error e => (s1, some e)
  | .ok (cooc, obsAfter) =>
    ({ similarity_mat := some (addMat cooc cooc.transpose), train_mat := some obsAfter }, none)

/-- UserCoocRecommender.fit: the builder runs on the transpose of the
train matrix and its output is assigned to similarity_mat as is, with no
transpose added.  The in-place weight transform rebinds the data
attribute of the transient transposed matrix, so the stored train matrix
itself keeps its original values. -/
def UserCoocRecommender.fit (sampler : List ℚ → List ℚ) (logF : ℚ → ℚ)
    (s : CoocRecState) (train_obs : SpMat) (normalize_items : Bool) (degree : Nat)
    (base_min_cooccurrence prune_ratio decay min_cooccurrence : ℚ)
    (trans_func : String) : CoocRecState × Option String :=
  let s1 := { s with train_mat := some train_obs }
  match interactions_mat_to_cooccurrence_mat sampler logF train_obs.transpose normalize_items
      degree base_min_cooccurrence prune_ratio decay min_cooccurrence trans_func with
  | .error e => (s1, some e)
  | .ok (cooc, _) => ({ s1 with similarity_mat := some cooc }, none)

/-- Brute-force full descending sort of a score vector (the reference the
top-K selection is compared against). -/
def bruteSortDesc (v : List ℚ) : List ℚ :=
  List.insertionSort (fun a b : ℚ => b ≤ a) v

theorem listMin_le {l : List ℚ} : ∀ x ∈ l, listMin l ≤ x := by
  induction l with
  | nil => intro x hx; cases hx
  | cons v vs ih =>
    intro x hx
    cases vs with
    | nil =>
      rcases List.mem_cons.mp hx with h | h
      · subst h; exact le_refl x
      · cases h
    | cons w ws =>
      rcases List.mem_cons.mp hx with h | h
      · subst h; exact min_le_left _ _
      · exact le_trans (min_le_right _ _) (ih x h)

theorem listMin_mem : ∀ {l : List ℚ}, l ≠ [] → listMin l ∈ l := by
  intro l
  induction l with
  | nil => intro h; exact absurd rfl h
  | cons v vs ih =>
    intro _
    cases vs with
    | nil => exact List.mem_singleton.mpr rfl
    | cons w ws =>
      rcases le_total v (listMin (w :: ws)) with h | h
      · have he : listMin (v :: w :: ws) = v := min_eq_left h
        rw [he]
        exact List.mem_cons_self _ _
      · have he : listMin (v :: w :: ws) = listMin (w :: ws) := min_eq_right h
        rw [he]
        exact List.mem_cons_of_mem _ (ih (by simp))

theorem listMin_map_add (c : ℚ) : ∀ {l : List ℚ}, l ≠ [] →
    listMin (l.map (fun x => x + c)) = listMin l + c := by
  intro l
  induction l with
  | nil => intro h; exact absurd rfl h
  | cons v vs ih =>
    intro _
    cases vs with
    | nil => rfl
    | cons w ws =>
      show min (v + c) (listMin ((w :: ws).map (fun x => x + c))) = min v (listMin (w :: ws)) + c
      rw [ih (by simp), min_add_add_right]

theorem SpMat.data_ne_nil_iff (m : SpMat) : m.data ≠ [] ↔ m.entries ≠ [] := by
  unfold SpMat.data
  constructor
  · intro h he; exact h (by rw [he]; rfl)
  · intro h hd; exact h (List.map_eq_nil_iff.mp hd)

theorem check_no_negatives_data (m : SpMat) :
    (check_no_negatives m).data
      = if m.data ≠ [] ∧ listMin m.data < 1 / 100 then
          m.data.map (fun v => v + |listMin m.data - 1 / 100|)
        else m.data := by
  unfold check_no_negatives
  split
  · unfold SpMat.data; rw [List.map_map, List.map_map]; rfl
  · rfl

theorem check_no_negatives_data_ge (m : SpMat) (h : m.entries ≠ []) :
    ∀ v ∈ (check_no_negatives m).data, 1 / 100 ≤ v := by
  have hd : m.data ≠ [] := (SpMat.data_ne_nil_iff m).mpr h
  intro v hv
  rw [check_no_negatives_data] at hv
  by_cases hmin : listMin m.data < 1 / 100
  · rw [if_pos ⟨hd, hmin⟩] at hv
    obtain ⟨w, hw, rfl⟩ := List.mem_map.mp hv
    have h1 : listMin m.data ≤ w := listMin_le w hw
    have h2 : |listMin m.data - 1 / 100| = 1 / 100 - listMin m.data := by
      rw [abs_of_neg (show listMin m.data - 1 / 100 < 0 by linarith), neg_sub]
    rw [h2]; linarith
  · rw [if_neg (fun hc => hmin hc.2)] at hv
    exact le_trans (not_lt.mp hmin) (listMin_le v hv)

theorem check_no_negatives_fixed (m : SpMat)
    (h : ¬(m.data ≠ [] ∧ listMin m.data < 1 / 100)) : check_no_negatives m = m := by
  unfold check_no_negatives
  rw [if_neg h]

theorem check_no_negatives_idem (m : SpMat) :
    check_no_negatives (check_no_negatives m) = check_no_negatives m := by
  by_cases hc : m.data ≠ [] ∧ listMin m.data < 1 / 100
  · have hdata : (check_no_negatives m).data
        = m.data.map (fun v => v + |listMin m.data - 1 / 100|) := by
      rw [check_no_negatives_data, if_pos hc]
    have habs : |listMin m.data - 1 / 100| = 1 / 100 - listMin m.data := by
      rw [abs_of_neg (show listMin m.data - 1 / 100 < 0 by linarith [hc.2]), neg_sub]
    have hmin2 : listMin (check_no_negatives m).data = 1 / 100 := by
      rw [hdata, listMin_map_add _ hc.1, habs]; ring
    refine check_no_negatives_fixed _ (fun hcon => ?_)
    have hlt := hcon.2
    rw [hmin2] at hlt
    exact lt_irrefl _ hlt
  · rw [check_no_negatives_fixed m hc, check_no_negatives_fixed m hc]

/-- C5, counterexample: on a matrix whose only stored value is 0.005
(below 0.01), the code shifts by abs(min - 0.01) = 0.005, not by
abs(min) + 0.01 = 0.015 as the claim states, so the claimed shifted
values differ from the computed ones. -/
theorem c5_counterexample :
    listMin (SpMat.data ⟨1, 1, [(0, 0, 1/200)]⟩) < 1 / 100 ∧
    (check_no_negatives ⟨1, 1, [(0, 0, 1/200)]⟩).data
      ≠ (SpMat.data ⟨1, 1, [(0, 0, 1/200)]⟩).map
          (fun v => v + (|listMin (SpMat.data ⟨1, 1, [(0, 0, 1/200)]⟩)| + 1 / 100)) := by
  with_unfolding_all decide

/-- C5, amended: for a similarity matrix with at least one stored value,
if some stored value is below 0.01 then _check_no_negatives shifts all
stored values by abs(min - 0.01) = 0.01 - min (which equals
abs(min) + 0.01 only when min is nonpositive); afterwards every stored
value is at least 0.01, and applying the operation twice equals applying
it once. -/
theorem c5_check_no_negatives_shift (m : SpMat) (hne : m.entries ≠ []) :
    (listMin m.data < 1 / 100 →
      (check_no_negatives m).entries
        = m.entries.map (fun e => (e.1, e.2.1, e.2.2 + (1 / 100 - listMin m.data)))) ∧
    (∀ v ∈ (check_no_negatives m).data, 1 / 100 ≤ v) ∧
    check_no_negatives (check_no_negatives m) = check_no_negatives m := by
  refine ⟨fun hmin => ?_, check_no_negatives_data_ge m hne, check_no_negatives_idem m⟩
  have hd : m.data ≠ [] := (SpMat.data_ne_nil_iff m).mpr hne
  have habs : |listMin m.data - 1 / 100| = 1 / 100 - listMin m.data := by
    rw [abs_of_neg (show listMin m.data - 1 / 100 < 0 by linarith), neg_sub]
  unfold check_no_negatives
  rw [if_pos ⟨hd, hmin⟩]
  simp only [habs]

/-- C5, witness: the amended theorem applied to a concrete matrix with a
negative stored value. -/
theorem c5_witness :
    check_no_negatives (check_no_negatives ⟨1, 1, [(0, 0, -3)]⟩)
      = check_no_negatives ⟨1, 1, [(0, 0, -3)]⟩ :=
  (c5_check_no_negatives_shift ⟨1, 1, [(0, 0, -3)]⟩ (by simp)).2.2

theorem prune_map_zero_filter (c : ℚ) (l : List (Nat × Nat × ℚ)) :
    (l.map (fun e => if e.2.2 < c then (e.1, e.2.1, (0 : ℚ)) else e)).filter
        (fun e => e.2.2 ≠ 0)
      = l.filter (fun e => c ≤ e.2.2 ∧ e.2.2 ≠ 0) := by
  induction l with
  | nil => rfl
  | cons e es ih =>
    simp only [List.map_cons, List.filter_cons, ih]
    by_cases hv : e.2.2 < c
    · have h1 : ¬c ≤ e.2.2 := not_le.mpr hv
      simp [hv, h1]
    · by_cases hz : e.2.2 = 0
      · simp only [if_neg hv]
        simp [hz]
      · simp [hv, hz, not_lt.mp hv]

/-- C8, counterexample: a matrix with a single stored zero entry has no
stored nonzero entries, yet prune_mat with ratio 0 and cutoff 5 does not
return it unchanged (the stored zero is eliminated). -/
theorem c8_counterexample :
    (∀ v ∈ (SpMat.data ⟨1, 1, [(0, 0, 0)]⟩), v = 0) ∧
    prune_mat (fun l => l) ⟨1, 1, [(0, 0, 0)]⟩ 0 5 ≠ ⟨1, 1, [(0, 0, 0)]⟩ := by
  with_unfolding_all decide

/-- C8, amended: prune_mat with ratio 0 is the identity when cutoff = 0
or when the matrix has no stored entries at all (stored zeros count);
otherwise it keeps exactly the stored entries whose value is both at
least the cutoff and nonzero, values unchanged, and it never changes the
shape. -/
theorem c8_prune_mat_ratio_zero (sampler : List ℚ → List ℚ) (m : SpMat) (c : ℚ) :
    ((c = 0 ∨ m.entries = []) → prune_mat sampler m 0 c = m) ∧
    (prune_mat sampler m 0 c).rows = m.rows ∧
    (prune_mat sampler m 0 c).cols = m.cols ∧
    (c ≠ 0 → (prune_mat sampler m 0 c).entries
        = m.entries.filter (fun e => c ≤ e.2.2 ∧ e.2.2 ≠ 0)) := by
  refine ⟨fun h => ?_, ?_, ?_, fun hc => ?_⟩
  · unfold prune_mat
    rw [if_pos]
    rcases h with h | h
    · exact Or.inl ⟨rfl, h⟩
    · exact Or.inr h
  · unfold prune_mat; split <;> rfl
  · unfold prune_mat; split <;> rfl
  · by_cases he : m.entries = []
    · unfold prune_mat
      rw [if_pos (Or.inr he), he]
      rfl
    · have hcut : pruneCutoffEff sampler m 0 c = c := by
        unfold pruneCutoffEff
        rw [if_neg (lt_irrefl 0)]
      unfold prune_mat
      rw [if_neg (by rintro (⟨_, h0⟩ | h0) <;> exact absurd h0 (by assumption))]
      rw [hcut]
      exact prune_map_zero_filter c m.entries

/-- C8, witness: the amended theorem applied at concrete inputs, once for
the no-op branch and once for a positive cutoff. -/
theorem c8_witness :
    prune_mat (fun l => l) ⟨2, 2, [(0, 0, 5)]⟩ 0 0 = ⟨2, 2, [(0, 0, 5)]⟩ ∧
    (prune_mat (fun l => l) ⟨1, 2, [(0, 0, 5), (0, 1, 2)]⟩ 0 3).entries
      = (SpMat.entries ⟨1, 2, [(0, 0, 5), (0, 1, 2)]⟩).filter
          (fun e => 3 ≤ e.2.2 ∧ e.2.2 ≠ 0) :=
  ⟨(c8_prune_mat_ratio_zero (fun l => l) ⟨2, 2, [(0, 0, 5)]⟩ 0).1 (Or.inl rfl),
   (c8_prune_mat_ratio_zero (fun l => l) ⟨1, 2, [(0, 0, 5), (0, 1, 2)]⟩ 3).2.2.2 (by norm_num)⟩

theorem checkState_idem (s : QueryState) : checkState (checkState s) = checkState s := by
  unfold checkState
  rw [check_no_negatives_idem]

/-- C2, counterexample: on a similarity matrix holding the stored value
-5, recommend_for_interaction_history returns a different result than it
would on the adjusted matrix, so the no-negatives adjustment is not
applied before this raw query operation. -/
theorem c2_counterexample :
    recommend_for_interaction_history ⟨⟨2, 2, [(0, 1, -5)]⟩, ⟨2, 2, []⟩⟩ [0] 1
      ≠ recommend_for_interaction_history
          (checkState ⟨⟨2, 2, [(0, 1, -5)]⟩, ⟨2, 2, []⟩⟩) [0] 1 := by
  with_unfolding_all decide

/-- C2, amended: the no-negatives adjustment runs before the ranking of
get_similar_items and of the base-class _get_recommendations_flat_unfilt
(both are therefore invariant under pre-adjusting the state, and the
matrix they rank on has all stored values at least 0.01), but it is not
run by recommend_for_interaction_history nor by the UserCoocRecommender
variant of _get_recommendations_flat_unfilt, which rank on the raw
stored similarity values and leave the state untouched. -/
theorem c2_check_before_queries (s : QueryState) (inds : List Nat) (nt nr nr2 nr3 : Nat)
    (hne : s.similarity_mat.entries ≠ []) :
    get_similar_items s inds nt = get_similar_items (checkState s) inds nt ∧
    get_recommendations_flat_unfilt s inds nr
      = get_recommendations_flat_unfilt (checkState s) inds nr ∧
    (∀ v ∈ ((get_similar_items s inds nt).1).similarity_mat.data, 1 / 100 ≤ v) ∧
    (∀ v ∈ ((get_recommendations_flat_unfilt s inds nr).1).similarity_mat.data, 1 / 100 ≤ v) ∧
    recommend_for_interaction_history s inds nr2
      = (s, recommend_for_item_inds s.similarity_mat inds nr2 true) ∧
    (userCooc_get_recommendations_flat_unfilt s inds nr3).1 = s := by
  refine ⟨?_, ?_, ?_, ?_, rfl, rfl⟩
  · unfold get_similar_items
    rw [checkState_idem]
  · unfold get_recommendations_flat_unfilt
    rw [checkState_idem]
  · exact check_no_negatives_data_ge s.similarity_mat hne
  · exact check_no_negatives_data_ge s.similarity_mat hne

/-- C2, witness: the amended theorem applied at a concrete state. -/
theorem c2_witness :
    recommend_for_interaction_history ⟨⟨1, 1, [(0, 0, 5)]⟩, ⟨1, 1, []⟩⟩ [] 0
      = (⟨⟨1, 1, [(0, 0, 5)]⟩, ⟨1, 1, []⟩⟩,
         recommend_for_item_inds
           (QueryState.similarity_mat ⟨⟨1, 1, [(0, 0, 5)]⟩, ⟨1, 1, []⟩⟩) [] 0 true) :=
  (c2_check_before_queries ⟨⟨1, 1, [(0, 0, 5)]⟩, ⟨1, 1, []⟩⟩ [] 0 0 0 0 (by simp)).2.2.2.2.1

theorem SpMat.dataSum_scaleData (m : SpMat) (c : ℚ) :
    (scaleData m c).dataSum = m.dataSum * c := by
  unfold scaleData SpMat.dataSum SpMat.data
  rw [List.map_map]
  induction m.entries with
  | nil => simp
  | cons e es ih =>
    simp only [List.map_cons, List.sum_cons, Function.comp]
    simp only [Function.comp] at ih
    rw [ih]
    ring

/-- C3, counterexample: for the 3-user, 4-item interaction matrix of the
spec example, degree 2, decay 1/2, prune_ratio 0 and min_cooccurrence 1,
the rescaled higher-degree matrix sums to 16/3 while total_weight is 6. -/
theorem c3_counterexample :
    ((first_degree_cooccurrence (fun l => l) (fun v => v) "ones"
        ⟨3, 4, [(0, 0, 1), (0, 1, 1), (1, 1, 1), (1, 2, 1), (2, 2, 1), (2, 3, 1)]⟩ 1).toOption.map
      (fun p => ((higherDegFinal (fun l => l) p.1 2 0 (1/2) 1).dataSum, p.1.dataSum)))
      = some ((16/3 : ℚ), (6 : ℚ)) ∧ (16/3 : ℚ) ≠ 6 := by
  with_unfolding_all decide

/-- C3, amended: after the final rescaling step the stored-value sum of
the higher-degree matrix equals total_weight * S / (S + 1), where S is
its stored-value sum just before the rescale and total_weight is the
stored-value sum of the first-degree base; this equals total_weight
exactly when total_weight is 0. -/
theorem c3_rescaled_sum (sampler : List ℚ → List ℚ) (base : SpMat) (degree : Nat)
    (pr dec mc : ℚ) :
    (higherDegFinal sampler base degree pr dec mc).dataSum
      = base.dataSum * (higherDegPre sampler base degree pr dec mc).dataSum
        / ((higherDegPre sampler base degree pr dec mc).dataSum + 1) ∧
    ((higherDegFinal sampler base degree pr dec mc).dataSum = base.dataSum
      ↔ base.dataSum = 0) := by
  have h1 : (higherDegFinal sampler base degree pr dec mc).dataSum
      = base.dataSum * (higherDegPre sampler base degree pr dec mc).dataSum
        / ((higherDegPre sampler base degree pr dec mc).dataSum + 1) := by
    unfold higherDegFinal
    rw [SpMat.dataSum_scaleData]
    rw [div_eq_mul_inv, div_eq_mul_inv]
    ring
  refine ⟨h1, ?_⟩
  rw [h1]
  set S := (higherDegPre sampler base degree pr dec mc).dataSum with hS
  set tw := base.dataSum with htw
  by_cases hz : S + 1 = 0
  · rw [hz, div_zero]
    exact eq_comm
  · rw [div_eq_iff hz]
    constructor
    · intro h
      have hexp : tw * (S + 1) - tw * S = tw := by ring
      linarith [h, hexp]
    · intro h
      rw [h]
      ring

theorem builder_snd_eq_transform (sampler : List ℚ → List ℚ) (logF : ℚ → ℚ)
    (obs : SpMat) (ni : Bool) (degree : Nat) (bmc pr dec mc : ℚ) (tf : String)
    (p : SpMat × SpMat)
    (hp : interactions_mat_to_cooccurrence_mat sampler logF obs ni degree bmc pr dec mc tf
      = .ok p) :
    applyTransFunc logF tf obs = .ok p.2 := by
  unfold interactions_mat_to_cooccurrence_mat first_degree_cooccurrence at hp
  cases h : applyTransFunc logF tf obs with
  | error e => rw [h] at hp; exact absurd hp (by simp)
  | ok mt =>
    rw [h] at hp
    injection hp with hp2
    rw [← hp2]

/-- C4, counterexample: building the co-occurrence matrix with the
default trans_func "ones" overwrites the stored values of the
interaction matrix in place; the interaction matrix with values 2 and 3
comes out with both values set to 1. -/
theorem c4_counterexample :
    (interactions_mat_to_cooccurrence_mat (fun l => l) (fun v => v)
        ⟨1, 2, [(0, 0, 2), (0, 1, 3)]⟩ false 1 1 0 0 1 "ones").toOption.map (fun p => p.2)
      = some ⟨1, 2, [(0, 0, 1), (0, 1, 1)]⟩ ∧
    (⟨1, 2, [(0, 0, 1), (0, 1, 1)]⟩ : SpMat) ≠ ⟨1, 2, [(0, 0, 2), (0, 1, 3)]⟩ := by
  with_unfolding_all decide

/-- C4, amended: interactions_mat_to_cooccurrence_mat mutates the
interaction matrix through the in-place weight transform: with
trans_func "none" the matrix is left unchanged, with "ones" all its
stored values are overwritten by 1, and with "log" by log10(v + 1), the
stored positions and shape staying fixed; ItemCoocRecommender.fit
therefore keeps a transformed train matrix. -/
theorem c4_builder_transforms_obs (sampler : List ℚ → List ℚ) (logF : ℚ → ℚ)
    (obs : SpMat) (ni : Bool) (degree : Nat) (bmc pr dec mc : ℚ) :
    (∀ p, interactions_mat_to_cooccurrence_mat sampler logF obs ni degree bmc pr dec mc "none"
        = .ok p → p.2 = obs) ∧
    (∀ p, interactions_mat_to_cooccurrence_mat sampler logF obs ni degree bmc pr dec mc "ones"
        = .ok p →
        p.2 = { obs with entries := obs.entries.map (fun e => (e.1, e.2.1, (1 : ℚ))) }) ∧
    (∀ p, interactions_mat_to_cooccurrence_mat sampler logF obs ni degree bmc pr dec mc "log"
        = .ok p →
        p.2 = { obs with entries := obs.entries.map (fun e => (e.1, e.2.1, logF e.2.2)) }) := by
  refine ⟨fun p hp => ?_, fun p hp => ?_, fun p hp => ?_⟩ <;>
    have h2 := builder_snd_eq_transform _ _ _ _ _ _ _ _ _ _ _ hp <;>
    · unfold applyTransFunc at h2
      simp only [String.reduceEq, if_true, if_false, reduceIte] at h2
      exact (Except.ok.injEq _ _).mp h2.symm

/-- C4, witness: the amended theorem applied at a concrete matrix with
trans_func "none", where the build leaves the matrix unchanged. -/
theorem c4_witness :
    (⟨(⟨2, 2, [(1, 1, 0)]⟩ : SpMat), (⟨1, 2, [(0, 1, 1)]⟩ : SpMat)⟩ :
        SpMat × SpMat).2 = ⟨1, 2, [(0, 1, 1)]⟩ :=
  (c4_builder_transforms_obs (fun l => l) (fun v => v) ⟨1, 2, [(0, 1, 1)]⟩
      false 1 1 0 0 1).1 _ (by with_unfolding_all decide)

/-- C10: with degree = 1 the builder never reads prune_ratio, decay or
min_cooccurrence, so two configurations differing only in those three
parameters produce identical results (matrix and mutated input alike). -/
theorem c10_degree_one_ignores_higher_params (sampler : List ℚ → List ℚ) (logF : ℚ → ℚ)
    (obs : SpMat) (ni : Bool) (bmc pr pr2 dec dec2 mc mc2 : ℚ) (tf : String) :
    interactions_mat_to_cooccurrence_mat sampler logF obs ni 1 bmc pr dec mc tf
      = interactions_mat_to_cooccurrence_mat sampler logF obs ni 1 bmc pr2 dec2 mc2 tf := by
  unfold interactions_mat_to_cooccurrence_mat
  cases first_degree_cooccurrence sampler logF tf obs bmc with
  | error e => rfl
  | ok p => simp [lt_irrefl]

theorem builder_error_of_bad_tf (sampler : List ℚ → List ℚ) (logF : ℚ → ℚ)
    (obs : SpMat) (ni : Bool) (degree : Nat) (bmc pr dec mc : ℚ) (tf : String)
    (h : ¬(tf = "ones" ∨ tf = "log" ∨ tf = "none")) :
    interactions_mat_to_cooccurrence_mat sampler logF obs ni degree bmc pr dec mc tf
      = .error ("Unknown trans_func: " ++ tf) := by
  push_neg at h
  obtain ⟨h1, h2, h3⟩ := h
  unfold interactions_mat_to_cooccurrence_mat first_degree_cooccurrence applyTransFunc
  rw [if_neg h1, if_neg h2, if_neg h3]

theorem builder_ok_of_good_tf (sampler : List ℚ → List ℚ) (logF : ℚ → ℚ)
    (obs : SpMat) (ni : Bool) (degree : Nat) (bmc pr dec mc : ℚ) (tf : String)
    (h : tf = "ones" ∨ tf = "log" ∨ tf = "none") :
    ∃ p, interactions_mat_to_cooccurrence_mat sampler logF obs ni degree bmc pr dec mc tf
      = .ok p := by
  rcases h with h | h | h <;> subst h <;> exact ⟨_, rfl⟩

/-- C9: the co-occurrence build fails exactly when trans_func is not one
of "ones", "log", "none", and on that failure ItemCoocRecommender.fit
leaves the similarity matrix exactly as it was before the call (the
error propagates before the assignment). -/
theorem c9_invalid_trans_func_aborts (sampler : List ℚ → List ℚ) (logF : ℚ → ℚ)
    (s : CoocRecState) (obs : SpMat) (ni : Bool) (degree : Nat)
    (bmc pr dec mc : ℚ) (tf : String) :
    ((ItemCoocRecommender.fit sampler logF s obs ni degree bmc pr dec mc tf).2 ≠ none
        ↔ ¬(tf = "ones" ∨ tf = "log" ∨ tf = "none")) ∧
    ((ItemCoocRecommender.fit sampler logF s obs ni degree bmc pr dec mc tf).2 ≠ none →
      (ItemCoocRecommender.fit sampler logF s obs ni degree bmc pr dec mc tf).1.similarity_mat
        = s.similarity_mat) := by
  by_cases h : tf = "ones" ∨ tf = "log" ∨ tf = "none"
  · obtain ⟨p, hp⟩ := builder_ok_of_good_tf sampler logF obs ni degree bmc pr dec mc tf h
    obtain ⟨c, o⟩ := p
    unfold ItemCoocRecommender.fit
    rw [hp]
    exact ⟨by simp [h], fun hcon => absurd rfl hcon⟩
  · have herr := builder_error_of_bad_tf sampler logF obs ni degree bmc pr dec mc tf h
    unfold ItemCoocRecommender.fit
    rw [herr]
    exact ⟨by simp [h], fun _ => rfl⟩

/-- C9, witness: fitting with the unknown trans_func "bogus" on a state
already holding a similarity matrix reports an error and leaves that
similarity matrix in place. -/
theorem c9_witness :
    (ItemCoocRecommender.fit (fun l => l) (fun v => v)
        ⟨some ⟨1, 1, [(0, 0, 7)]⟩, none⟩ ⟨1, 1, []⟩ true 1 1 0 0 1 "bogus").1.similarity_mat
      = some ⟨1, 1, [(0, 0, 7)]⟩ :=
  (c9_invalid_trans_func_aborts (fun l => l) (fun v => v)
      ⟨some ⟨1, 1, [(0, 0, 7)]⟩, none⟩ ⟨1, 1, []⟩ true 1 1 0 0 1 "bogus").2
    (by with_unfolding_all decide)

/-- The stored positions of an entry list. -/
def posList (l : List (Nat × Nat × ℚ)) : List (Nat × Nat) :=
  l.map (fun e => (e.1, e.2.1))

theorem entriesVal_map_pos_fn (f : Nat × Nat → ℚ) (i j : Nat) :
    ∀ (pos : List (Nat × Nat)), pos.Nodup →
      entriesVal (pos.map (fun p => (p.1, p.2, f p))) i j
        = if (i, j) ∈ pos then f (i, j) else 0 := by
  intro pos
  induction pos with
  | nil => intro _; simp [entriesVal]
  | cons q qs ih =>
    intro hnd
    rw [List.nodup_cons] at hnd
    simp only [List.map_cons]
    show (if q.1 = i ∧ q.2 = j then f q else 0) + entriesVal (qs.map _) i j = _
    rw [ih hnd.2]
    by_cases h1 : q.1 = i ∧ q.2 = j
    · have hq : q = (i, j) := by
        obtain ⟨ha, hb⟩ := h1
        exact Prod.ext ha hb
      have hnm : (i, j) ∉ qs := hq ▸ hnd.1
      rw [if_pos h1, if_neg hnm, if_pos (by rw [hq]; exact List.mem_cons_self _ _), hq]
      ring
    · have hne : (i, j) ≠ q := fun hc => h1 (by rw [← hc]; exact ⟨rfl, rfl⟩)
      rw [if_neg h1]
      by_cases h2 : (i, j) ∈ qs
      · rw [if_pos h2, if_pos (List.mem_cons_of_mem _ h2)]
        ring
      · rw [if_neg h2, if_neg (by
          intro hc
          rcases List.mem_cons.mp hc with hc | hc
          exacts [hne hc, h2 hc])]
        ring

theorem toFun_addMat (A B : SpMat) (i j : Nat) :
    (addMat A B).toFun i j
      = if (i, j) ∈ posList A.entries ∨ (i, j) ∈ posList B.entries
        then A.toFun i j + B.toFun i j else 0 := by
  show entriesVal ((posList A.entries ++ posList B.entries).dedup.map
      (fun p => (p.1, p.2, A.toFun p.1 p.2 + B.toFun p.1 p.2))) i j = _
  rw [entriesVal_map_pos_fn (fun p => A.toFun p.1 p.2 + B.toFun p.1 p.2) i j _
    (List.nodup_dedup _)]
  by_cases h : (i, j) ∈ posList A.entries ∨ (i, j) ∈ posList B.entries
  · rw [if_pos h, if_pos (by
      rw [List.mem_dedup, List.mem_append]
      exact h)]
  · rw [if_neg h, if_neg (by
      rw [List.mem_dedup, List.mem_append]
      exact h)]

theorem toFun_transpose (m : SpMat) (i j : Nat) :
    m.transpose.toFun i j = m.toFun j i := by
  unfold SpMat.transpose SpMat.toFun
  induction m.entries with
  | nil => rfl
  | cons e es ih =>
    simp only [List.map_cons]
    show (if e.2.1 = i ∧ e.1 = j then e.2.2 else 0) + entriesVal (es.map _) i j
      = (if e.1 = j ∧ e.2.1 = i then e.2.2 else 0) + entriesVal es j i
    rw [ih]
    congr 1
    by_cases h : e.2.1 = i ∧ e.1 = j
    · rw [if_pos h, if_pos ⟨h.2, h.1⟩]
    · rw [if_neg h, if_neg (fun hc => h ⟨hc.2, hc.1⟩)]

theorem posList_transpose (m : SpMat) (i j : Nat) :
    (i, j) ∈ posList m.transpose.entries ↔ (j, i) ∈ posList m.entries := by
  unfold posList SpMat.transpose
  rw [List.map_map]
  constructor
  · intro h
    obtain ⟨e, he, hq⟩ := List.mem_map.mp h
    refine List.mem_map.mpr ⟨e, he, ?_⟩
    have h1 : e.2.1 = i := congrArg Prod.fst hq
    have h2 : e.1 = j := congrArg Prod.snd hq
    rw [h1, h2]
  · intro h
    obtain ⟨e, he, hq⟩ := List.mem_map.mp h
    refine List.mem_map.mpr ⟨e, he, ?_⟩
    have h1 : e.1 = j := congrArg Prod.fst hq
    have h2 : e.2.1 = i := congrArg Prod.snd hq
    show ((fun x => (x.2.1, x.1)) ∘ fun e => e) e = (i, j)
    show (e.2.1, e.1) = (i, j)
    rw [h1, h2]

theorem toFun_addMat_self_transpose (A : SpMat) (i j : Nat) :
    (addMat A A.transpose).toFun i j
      = if (i, j) ∈ posList A.entries ∨ (j, i) ∈ posList A.entries
        then A.toFun i j + A.toFun j i else 0 := by
  rw [toFun_addMat]
  by_cases h : (i, j) ∈ posList A.entries ∨ (i, j) ∈ posList A.transpose.entries
  · have h2 : (i, j) ∈ posList A.entries ∨ (j, i) ∈ posList A.entries := by
      rcases h with h | h
      · exact Or.inl h
      · exact Or.inr ((posList_transpose A i j).mp h)
    rw [if_pos h, if_pos h2, toFun_transpose]
  · have h2 : ¬((i, j) ∈ posList A.entries ∨ (j, i) ∈ posList A.entries) := by
      rintro (hc | hc)
      · exact h (Or.inl hc)
      · exact h (Or.inr ((posList_transpose A i j).mpr hc))
    rw [if_neg h, if_neg h2]

theorem addMat_self_transpose_symm (A : SpMat) (i j : Nat) :
    (addMat A A.transpose).toFun i j = (addMat A A.transpose).toFun j i := by
  rw [toFun_addMat_self_transpose, toFun_addMat_self_transpose]
  by_cases h : (i, j) ∈ posList A.entries ∨ (j, i) ∈ posList A.entries
  · rw [if_pos h, if_pos (Or.symm h)]
    ring
  · rw [if_neg h, if_neg (fun hc => h (Or.symm hc))]

/-- C6: after a successful ItemCoocRecommender.fit the held similarity
matrix equals its own transpose elementwise (the fitted co-occurrence
matrix gets its transpose added), while UserCoocRecommender.fit assigns
the builder output on the transposed interaction matrix as is, with no
transpose added. -/
theorem c6_item_symmetric_user_not (sampler : List ℚ → List ℚ) (logF : ℚ → ℚ)
    (s : CoocRecState) (train_obs : SpMat) (ni : Bool) (degree : Nat)
    (bmc pr dec mc : ℚ) (tf : String)
    (htf : tf = "ones" ∨ tf = "log" ∨ tf = "none") :
    (ItemCoocRecommender.fit sampler logF s train_obs ni degree bmc pr dec mc tf).1.similarity_mat
      ≠ none ∧
    (∀ M, (ItemCoocRecommender.fit sampler logF s train_obs ni degree bmc pr dec mc
        tf).1.similarity_mat = some M → ∀ i j, M.toFun i j = M.toFun j i) ∧
    (UserCoocRecommender.fit sampler logF s train_obs ni degree bmc pr dec mc tf).1.similarity_mat
      ≠ none ∧
    (∀ C obsAfter,
      interactions_mat_to_cooccurrence_mat sampler logF train_obs.transpose ni degree bmc pr
          dec mc tf = .ok (C, obsAfter) →
      (UserCoocRecommender.fit sampler logF s train_obs ni degree bmc pr dec mc
          tf).1.similarity_mat = some C) := by
  obtain ⟨p, hp⟩ := builder_ok_of_good_tf sampler logF train_obs ni degree bmc pr dec mc tf htf
  obtain ⟨c, o⟩ := p
  obtain ⟨p2, hp2⟩ :=
    builder_ok_of_good_tf sampler logF train_obs.transpose ni degree bmc pr dec mc tf htf
  obtain ⟨c2, o2⟩ := p2
  refine ⟨?_, ?_, ?_, ?_⟩
  · unfold ItemCoocRecommender.fit
    rw [hp]
    simp
  · intro M hM
    unfold ItemCoocRecommender.fit at hM
    rw [hp] at hM
    have hM2 : addMat c c.transpose = M := by
      injection hM
    intro i j
    rw [← hM2]
    exact addMat_self_transpose_symm c i j
  · unfold UserCoocRecommender.fit
    rw [hp2]
    simp
  · intro C obsAfter hC
    unfold UserCoocRecommender.fit
    rw [hC]

/-- C6, witness: the symmetry conclusion instantiated on a concrete fit
result at position (0, 1). -/
theorem c6_witness :
    SpMat.toFun ⟨2, 2, [(0, 0, 0), (1, 0, 2), (0, 1, 2), (1, 1, 0)]⟩ 0 1
      = SpMat.toFun ⟨2, 2, [(0, 0, 0), (1, 0, 2), (0, 1, 2), (1, 1, 0)]⟩ 1 0 :=
  (c6_item_symmetric_user_not (fun l => l) (fun v => v) ⟨none, none⟩
      ⟨1, 2, [(0, 0, 1), (0, 1, 2)]⟩ false 1 1 0 0 1 "ones" (Or.inl rfl)).2.1
    ⟨2, 2, [(0, 0, 0), (1, 0, 2), (0, 1, 2), (1, 1, 0)]⟩ (by with_unfolding_all decide) 0 1

theorem rankOrder_total (v : List ℚ) (i j : Nat) : rankOrder v i j ∨ rankOrder v j i := by
  rcases lt_trichotomy (v.getD i 0) (v.getD j 0) with h | h | h
  · exact Or.inr (Or.inl h)
  · rcases le_total i j with hle | hle
    · exact Or.inl (Or.inr ⟨h, hle⟩)
    · exact Or.inr (Or.inr ⟨h.symm, hle⟩)
  · exact Or.inl (Or.inl h)

theorem rankOrder_trans (v : List ℚ) {i j k : Nat}
    (h1 : rankOrder v i j) (h2 : rankOrder v j k) : rankOrder v i k := by
  rcases h1 with h1 | ⟨h1e, h1l⟩ <;> rcases h2 with h2 | ⟨h2e, h2l⟩
  · exact Or.inl (lt_trans h2 h1)
  · exact Or.inl (by rw [← h2e]; exact h1)
  · exact Or.inl (by rw [h1e]; exact h2)
  · exact Or.inr ⟨h1e.trans h2e, le_trans h1l h2l⟩

theorem sorted_argsortDesc (v : List ℚ) : List.Sorted (rankOrder v) (argsortDesc v) := by
  haveI : IsTotal Nat (rankOrder v) := ⟨rankOrder_total v⟩
  haveI : IsTrans Nat (rankOrder v) := ⟨fun _ _ _ => rankOrder_trans v⟩
  exact List.sorted_insertionSort _ _

theorem perm_argsortDesc (v : List ℚ) : List.Perm (argsortDesc v) (List.range v.length) :=
  List.perm_insertionSort _ _

theorem length_argsortDesc (v : List ℚ) : (argsortDesc v).length = v.length := by
  rw [(perm_argsortDesc v).length_eq, List.length_range]

theorem nodup_argsortDesc (v : List ℚ) : (argsortDesc v).Nodup :=
  ((perm_argsortDesc v).nodup_iff).mpr (List.nodup_range _)

theorem mem_argsortDesc_lt (v : List ℚ) {i : Nat} (h : i ∈ argsortDesc v) : i < v.length :=
  List.mem_range.mp ((perm_argsortDesc v).mem_iff.mp h)

theorem map_getD_range (l : List ℚ) :
    (List.range l.length).map (fun i => l.getD i 0) = l := by
  apply List.ext_getElem
  · simp
  · intro n h1 h2
    simp only [List.getElem_map, List.getElem_range]
    rw [List.getD_eq_getElem l 0 h2]

theorem getD_map_range (f : Nat → ℚ) {n j : Nat} (h : j < n) :
    ((List.range n).map f).getD j 0 = f j := by
  have hlen : j < ((List.range n).map f).length := by simpa using h
  rw [List.getD_eq_getElem _ 0 hlen]
  simp

theorem map_getD_argsortDesc_sorted (v : List ℚ) :
    List.Sorted (fun a b : ℚ => b ≤ a) ((argsortDesc v).map (fun i => v.getD i 0)) := by
  refine List.Pairwise.map _ ?_ (sorted_argsortDesc v)
  intro a b hab
  rcases hab with h | ⟨h, _⟩
  · exact le_of_lt h
  · exact le_of_eq h.symm

theorem map_getD_argsortDesc_perm (v : List ℚ) :
    List.Perm ((argsortDesc v).map (fun i => v.getD i 0)) v := by
  have h := (perm_argsortDesc v).map (fun i => v.getD i 0)
  rw [map_getD_range v] at h
  exact h

theorem sorted_bruteSortDesc (v : List ℚ) :
    List.Sorted (fun a b : ℚ => b ≤ a) (bruteSortDesc v) := by
  haveI : IsTotal ℚ (fun a b : ℚ => b ≤ a) := ⟨fun a b => le_total b a⟩
  haveI : IsTrans ℚ (fun a b : ℚ => b ≤ a) := ⟨fun _ _ _ h1 h2 => le_trans h2 h1⟩
  exact List.sorted_insertionSort _ _

theorem perm_bruteSortDesc (v : List ℚ) : List.Perm (bruteSortDesc v) v :=
  List.perm_insertionSort _ _

theorem map_getD_argsortDesc_eq_bruteSort (v : List ℚ) :
    (argsortDesc v).map (fun i => v.getD i 0) = bruteSortDesc v := by
  haveI : IsTotal ℚ (fun a b : ℚ => b ≤ a) := ⟨fun a b => le_total b a⟩
  haveI : IsTrans ℚ (fun a b : ℚ => b ≤ a) := ⟨fun _ _ _ h1 h2 => le_trans h2 h1⟩
  haveI : IsAntisymm ℚ (fun a b : ℚ => b ≤ a) := ⟨fun _ _ h1 h2 => le_antisymm h2 h1⟩
  exact List.eq_of_perm_of_sorted
    ((map_getD_argsortDesc_perm v).trans (perm_bruteSortDesc v).symm)
    (map_getD_argsortDesc_sorted v) (sorted_bruteSortDesc v)

theorem sumSimils_length (simMat : SpMat) (item_inds : List Nat) (rs : Bool) :
    (sumSimils simMat item_inds rs).length = simMat.cols := by
  unfold sumSimils
  rw [List.length_map, List.length_range]

theorem sumSimils_getD (simMat : SpMat) (item_inds : List Nat) {j : Nat}
    (h : j < simMat.cols) :
    (sumSimils simMat item_inds false).getD j 0
      = (item_inds.map (fun i => simMat.toFun i j)).sum := by
  unfold sumSimils
  rw [getD_map_range _ h]
  simp

/-- C1: for a similarity matrix, a nonempty valid seed set and any k,
the ranking _recommend_for_item_inds in the configuration whose score
vector is the plain column-wise sum of the seed rows (remove_self=False,
the batch-query configuration) returns exactly min(k, #columns) indices
with their scores, the score of each returned index is that column sum,
the scores are sorted descending, the indices are distinct, and the
returned scores are the first min(k, #columns) entries of the
brute-force descending sort of the full score vector. -/
theorem c1_recommend_top_k (simMat : SpMat) (item_inds : List Nat) (k : Nat)
    (hne : item_inds ≠ []) (hvalid : ∀ i ∈ item_inds, i < simMat.rows) :
    (recommend_for_item_inds simMat item_inds k false).1.length = min k simMat.cols ∧
    (recommend_for_item_inds simMat item_inds k false).2.length = min k simMat.cols ∧
    (recommend_for_item_inds simMat item_inds k false).2
      = (recommend_for_item_inds simMat item_inds k false).1.map
          (fun j => (item_inds.map (fun i => simMat.toFun i j)).sum) ∧
    List.Sorted (fun a b : ℚ => b ≤ a) (recommend_for_item_inds simMat item_inds k false).2 ∧
    (recommend_for_item_inds simMat item_inds k false).1.Nodup ∧
    (recommend_for_item_inds simMat item_inds k false).2
      = (bruteSortDesc (sumSimils simMat item_inds false)).take (min k simMat.cols) := by
  have hvlen : (sumSimils simMat item_inds false).length = simMat.cols :=
    sumSimils_length simMat item_inds false
  have hfst : (recommend_for_item_inds simMat item_inds k false).1
      = topNIndices (sumSimils simMat item_inds false) k := rfl
  have hsnd : (recommend_for_item_inds simMat item_inds k false).2
      = (topNIndices (sumSimils simMat item_inds false) k).map
          (fun i => (sumSimils simMat item_inds false).getD i 0) := rfl
  have hlen1 : (topNIndices (sumSimils simMat item_inds false) k).length
      = min k simMat.cols := by
    unfold topNIndices
    rw [List.length_take, length_argsortDesc, hvlen]
    omega
  have hsub : List.Sublist (topNIndices (sumSimils simMat item_inds false) k)
      (argsortDesc (sumSimils simMat item_inds false)) := List.take_sublist _ _
  have hscores : (recommend_for_item_inds simMat item_inds k false).2
      = (bruteSortDesc (sumSimils simMat item_inds false)).take (min k simMat.cols) := by
    rw [hsnd]
    unfold topNIndices
    rw [List.map_take, map_getD_argsortDesc_eq_bruteSort, hvlen]
  refine ⟨?_, ?_, ?_, ?_, ?_, hscores⟩
  · rw [hfst]; exact hlen1
  · rw [hsnd, List.length_map]; exact hlen1
  · rw [hsnd, hfst]
    refine List.map_congr_left ?_
    intro j hj
    have hjlt := mem_argsortDesc_lt _ (hsub.subset hj)
    rw [hvlen] at hjlt
    exact sumSimils_getD simMat item_inds hjlt
  · rw [hscores]
    exact List.Pairwise.sublist (List.take_sublist _ _) (sorted_bruteSortDesc _)
  · rw [hfst]
    exact List.Nodup.sublist hsub (nodup_argsortDesc _)

/-- C1, witness: the length conclusion instantiated on a concrete 3-by-3
similarity matrix with seeds 0 and 1 and k = 2. -/
theorem c1_witness :
    (recommend_for_item_inds ⟨3, 3, [(0, 1, 2), (0, 2, 5), (1, 2, 1)]⟩ [0, 1] 2 false).1.length
      = min 2 (SpMat.cols ⟨3, 3, [(0, 1, 2), (0, 2, 5), (1, 2, 1)]⟩) :=
  (c1_recommend_top_k ⟨3, 3, [(0, 1, 2), (0, 2, 5), (1, 2, 1)]⟩ [0, 1] 2
    (by simp) (by intro i hi; fin_cases hi <;> norm_num)).1

/-- All stored values of the matrix are nonnegative. -/
def NonnegData (m : SpMat) : Prop := ∀ e ∈ m.entries, 0 ≤ e.2.2

/-- Every stored entry sits in a column below the column count. -/
def ColsBound (m : SpMat) : Prop := ∀ e ∈ m.entries, e.2.1 < m.cols

theorem entriesVal_nonneg {l : List (Nat × Nat × ℚ)} (h : ∀ e ∈ l, 0 ≤ e.2.2)
    (i j : Nat) : 0 ≤ entriesVal l i j := by
  induction l with
  | nil => exact le_refl 0
  | cons e es ih =>
    show 0 ≤ (if e.1 = i ∧ e.2.1 = j then e.2.2 else 0) + entriesVal es i j
    have h1 : 0 ≤ (if e.1 = i ∧ e.2.1 = j then e.2.2 else 0) := by
      split
      · exact h e (List.mem_cons_self _ _)
      · exact le_refl 0
    have h2 := ih (fun x hx => h x (List.mem_cons_of_mem _ hx))
    linarith

theorem mem_prune_mat {sampler : List ℚ → List ℚ} {m : SpMat} {r c : ℚ}
    {e : Nat × Nat × ℚ} (he : e ∈ (prune_mat sampler m r c).entries) : e ∈ m.entries := by
  unfold prune_mat at he
  split at he
  · exact he
  · rw [List.mem_filter] at he
    obtain ⟨hmem, hnz⟩ := he
    rw [List.mem_map] at hmem
    obtain ⟨x, hx, hxe⟩ := hmem
    split at hxe
    · rw [← hxe] at hnz
      simp at hnz
    · rw [← hxe]
      exact hx

theorem prune_mat_cols (sampler : List ℚ → List ℚ) (m : SpMat) (r c : ℚ) :
    (prune_mat sampler m r c).cols = m.cols := by
  unfold prune_mat
  split <;> rfl

theorem nonneg_prune {m : SpMat} (h : NonnegData m) (sampler : List ℚ → List ℚ) (r c : ℚ) :
    NonnegData (prune_mat sampler m r c) :=
  fun e he => h e (mem_prune_mat he)

theorem colsBound_prune {m : SpMat} (h : ColsBound m) (sampler : List ℚ → List ℚ) (r c : ℚ) :
    ColsBound (prune_mat sampler m r c) := by
  intro e he
  rw [prune_mat_cols]
  exact h e (mem_prune_mat he)

theorem mem_setdiag0_parts {m : SpMat} {e : Nat × Nat × ℚ}
    (he : e ∈ (setdiag0 m).entries) :
    ∃ x ∈ m.entries, e.1 = x.1 ∧ e.2.1 = x.2.1 ∧ (e.2.2 = 0 ∨ e.2.2 = x.2.2) := by
  unfold setdiag0 at he
  simp only [List.mem_map] at he
  obtain ⟨x, hx, hxe⟩ := he
  refine ⟨x, hx, ?_⟩
  split at hxe <;> rw [← hxe]
  · exact ⟨rfl, rfl, Or.inl rfl⟩
  · exact ⟨rfl, rfl, Or.inr rfl⟩

theorem nonneg_setdiag0 {m : SpMat} (h : NonnegData m) : NonnegData (setdiag0 m) := by
  intro e he
  obtain ⟨x, hx, _, _, hv⟩ := mem_setdiag0_parts he
  rcases hv with hv | hv
  · rw [hv]
  · rw [hv]
    exact h x hx

theorem colsBound_setdiag0 {m : SpMat} (h : ColsBound m) : ColsBound (setdiag0 m) := by
  intro e he
  obtain ⟨x, hx, _, hc, _⟩ := mem_setdiag0_parts he
  rw [hc]
  exact h x hx

theorem nonneg_scaleData {m : SpMat} (h : NonnegData m) {c : ℚ} (hc : 0 ≤ c) :
    NonnegData (scaleData m c) := by
  intro e he
  unfold scaleData at he
  simp only [List.mem_map] at he
  obtain ⟨x, hx, rfl⟩ := he
  exact mul_nonneg (h x hx) hc

theorem colsBound_scaleData {m : SpMat} (h : ColsBound m) (c : ℚ) :
    ColsBound (scaleData m c) := by
  intro e he
  unfold scaleData at he
  simp only [List.mem_map] at he
  obtain ⟨x, hx, rfl⟩ := he
  exact h x hx

theorem nonneg_transpose {m : SpMat} (h : NonnegData m) : NonnegData m.transpose := by
  intro e he
  unfold SpMat.transpose at he
  simp only [List.mem_map] at he
  obtain ⟨x, hx, rfl⟩ := he
  exact h x hx

theorem nonneg_matmul {A B : SpMat} (hA : NonnegData A) (hB : NonnegData B) :
    NonnegData (matmul A B) := by
  intro e he
  unfold matmul at he
  simp only [List.mem_flatMap, List.mem_filterMap] at he
  obtain ⟨i, _, j, _, hij⟩ := he
  split at hij
  · exact absurd hij (by simp)
  · have he2 : (i, j, dotRC A B i j) = e := by injection hij
    rw [← he2]
    show 0 ≤ dotRC A B i j
    unfold dotRC
    apply List.sum_nonneg
    intro x hx
    obtain ⟨kk, _, rfl⟩ := List.mem_map.mp hx
    exact mul_nonneg (entriesVal_nonneg hA _ _) (entriesVal_nonneg hB _ _)

theorem colsBound_matmul (A B : SpMat) : ColsBound (matmul A B) := by
  intro e he
  unfold matmul at he
  simp only [List.mem_flatMap, List.mem_filterMap] at he
  obtain ⟨i, _, j, hj, hij⟩ := he
  split at hij
  · exact absurd hij (by simp)
  · have he2 : (i, j, dotRC A B i j) = e := by injection hij
    rw [← he2]
    show j < (matmul A B).cols
    exact List.mem_range.mp hj

theorem nonneg_addMat {A B : SpMat} (hA : NonnegData A) (hB : NonnegData B) :
    NonnegData (addMat A B) := by
  intro e he
  unfold addMat at he
  simp only [List.mem_map] at he
  obtain ⟨p, _, rfl⟩ := he
  exact add_nonneg (entriesVal_nonneg hA _ _) (entriesVal_nonneg hB _ _)

theorem colsBound_addMat {A B : SpMat} (hA : ColsBound A) (hB : ColsBound B)
    (hEq : B.cols = A.cols) : ColsBound (addMat A B) := by
  intro e he
  unfold addMat at he
  simp only [List.mem_map] at he
  obtain ⟨p, hp, rfl⟩ := he
  show p.2 < A.cols
  rw [List.mem_dedup, List.mem_append] at hp
  rcases hp with hp | hp
  · obtain ⟨x, hx, hq⟩ := List.mem_map.mp hp
    have hpx : p.2 = x.2.1 := (congrArg Prod.snd hq).symm
    rw [hpx]
    exact hA x hx
  · obtain ⟨x, hx, hq⟩ := List.mem_map.mp hp
    have hpx : p.2 = x.2.1 := (congrArg Prod.snd hq).symm
    rw [hpx, ← hEq]
    exact hB x hx

theorem nonneg_dataSum {m : SpMat} (h : NonnegData m) : 0 ≤ m.dataSum := by
  unfold SpMat.dataSum SpMat.data
  apply List.sum_nonneg
  intro x hx
  obtain ⟨e, he, rfl⟩ := List.mem_map.mp hx
  exact h e he

theorem nonneg_higherDegStep {h : SpMat} (hn : NonnegData h) {dec : ℚ} (hd : 0 ≤ dec)
    (i : Nat) : NonnegData (higherDegStep dec i h) :=
  nonneg_setdiag0 (nonneg_addMat hn
    (nonneg_matmul (nonneg_scaleData hn (pow_nonneg hd _)) hn))

theorem colsBound_higherDegStep {h : SpMat} (hb : ColsBound h) (dec : ℚ) (i : Nat) :
    ColsBound (higherDegStep dec i h) :=
  colsBound_setdiag0 (colsBound_addMat hb (colsBound_matmul _ _) rfl)

theorem nonneg_higherDegLoop {h : SpMat} (hn : NonnegData h) {dec : ℚ} (hd : 0 ≤ dec) :
    ∀ n, NonnegData (higherDegLoop dec h n)
  | 0 => hn
  | n + 1 => nonneg_higherDegStep (nonneg_higherDegLoop hn hd n) hd n

theorem colsBound_higherDegLoop {h : SpMat} (hb : ColsBound h) (dec : ℚ) :
    ∀ n, ColsBound (higherDegLoop dec h n)
  | 0 => hb
  | n + 1 => colsBound_higherDegStep (colsBound_higherDegLoop hb dec n) dec n

theorem higherDegLoop_cols (dec : ℚ) (h : SpMat) :
    ∀ n, (higherDegLoop dec h n).cols = h.cols
  | 0 => rfl
  | n + 1 => higherDegLoop_cols dec h n

theorem higherDegFinal_cols (sampler : List ℚ → List ℚ) (base : SpMat) (degree : Nat)
    (pr dec mc : ℚ) : (higherDegFinal sampler base degree pr dec mc).cols = base.cols := by
  show (higherDegPre sampler base degree pr dec mc).cols = base.cols
  unfold higherDegPre
  rw [higherDegLoop_cols, prune_mat_cols]

theorem nonneg_higherDegFinal {base : SpMat} (hn : NonnegData base) {dec : ℚ}
    (hd : 0 ≤ dec) (sampler : List ℚ → List ℚ) (degree : Nat) (pr mc : ℚ) :
    NonnegData (higherDegFinal sampler base degree pr dec mc) := by
  have hpre : NonnegData (higherDegPre sampler base degree pr dec mc) :=
    nonneg_higherDegLoop (nonneg_prune hn sampler pr mc) hd _
  refine nonneg_scaleData hpre (div_nonneg (nonneg_dataSum hn) ?_)
  have := nonneg_dataSum hpre
  linarith

theorem colsBound_higherDegFinal {base : SpMat} (hb : ColsBound base)
    (sampler : List ℚ → List ℚ) (degree : Nat) (pr dec mc : ℚ) :
    ColsBound (higherDegFinal sampler base degree pr dec mc) := by
  have hpre : ColsBound (higherDegPre sampler base degree pr dec mc) :=
    colsBound_higherDegLoop (colsBound_prune hb sampler pr mc) dec _
  exact colsBound_scaleData hpre _

theorem nonneg_transform {logF : ℚ → ℚ} {tf : String} {obs mt : SpMat}
    (hobs : NonnegData obs) (hlog : ∀ v, 0 ≤ v → 0 ≤ logF v)
    (h : applyTransFunc logF tf obs = .ok mt) : NonnegData mt := by
  unfold applyTransFunc at h
  split_ifs at h
  · injection h with h4
    rw [← h4]
    intro e he
    simp only [List.mem_map] at he
    obtain ⟨x, _, rfl⟩ := he
    norm_num
  · injection h with h4
    rw [← h4]
    intro e he
    simp only [List.mem_map] at he
    obtain ⟨x, hx, rfl⟩ := he
    exact hlog _ (hobs x hx)
  · injection h with h4
    rw [← h4]
    exact hobs

theorem fdc_parts {sampler : List ℚ → List ℚ} {logF : ℚ → ℚ} {tf : String}
    {mat : SpMat} {mc : ℚ} {base mt : SpMat}
    (h : first_degree_cooccurrence sampler logF tf mat mc = .ok (base, mt)) :
    applyTransFunc logF tf mat = .ok mt ∧
    base = (if 1 < mc then prune_mat sampler (setdiag0 (matmul mt.transpose mt)) 0 mc
            else setdiag0 (matmul mt.transpose mt)) := by
  unfold first_degree_cooccurrence at h
  cases ha : applyTransFunc logF tf mat with
  | error e => rw [ha] at h; exact absurd h (by simp)
  | ok mt2 =>
    rw [ha] at h
    injection h with h2
    have e1 : mt2 = mt := congrArg Prod.snd h2
    have e2 := congrArg Prod.fst h2
    subst e1
    exact ⟨rfl, e2.symm⟩

theorem nonneg_fdc_base {sampler : List ℚ → List ℚ} {logF : ℚ → ℚ} {tf : String}
    {mat : SpMat} {mc : ℚ} {base mt : SpMat}
    (hobs : NonnegData mat) (hlog : ∀ v, 0 ≤ v → 0 ≤ logF v)
    (h : first_degree_cooccurrence sampler logF tf mat mc = .ok (base, mt)) :
    NonnegData base ∧ ColsBound base := by
  obtain ⟨ha, hb⟩ := fdc_parts h
  have hmt : NonnegData mt := nonneg_transform hobs hlog ha
  have hc : NonnegData (setdiag0 (matmul mt.transpose mt)) :=
    nonneg_setdiag0 (nonneg_matmul (nonneg_transpose hmt) hmt)
  have hcb : ColsBound (setdiag0 (matmul mt.transpose mt)) :=
    colsBound_setdiag0 (colsBound_matmul _ _)
  rw [hb]
  split
  · exact ⟨nonneg_prune hc sampler 0 mc, colsBound_prune hcb sampler 0 mc⟩
  · exact ⟨hc, hcb⟩

theorem listRangeSum_eq (f : Nat → ℚ) : ∀ n, ((List.range n).map f).sum = ∑ j in Finset.range n, f j
  | 0 => by simp
  | n + 1 => by
    rw [List.range_succ, List.map_append, List.sum_append, Finset.sum_range_succ,
      listRangeSum_eq f n]
    simp

theorem sum_range_entriesVal {c : Nat} :
    ∀ (l : List (Nat × Nat × ℚ)), (∀ e ∈ l, e.2.1 < c) → ∀ i,
      (∑ j in Finset.range c, entriesVal l i j)
        = ((l.filter (fun e => e.1 = i)).map (fun e => e.2.2)).sum := by
  intro l
  induction l with
  | nil => intro _ i; simp [entriesVal]
  | cons e es ih =>
    intro hb i
    have hsplit : ∀ j, entriesVal (e :: es) i j
        = (if e.1 = i ∧ e.2.1 = j then e.2.2 else 0) + entriesVal es i j := fun j => rfl
    rw [Finset.sum_congr rfl (fun j _ => hsplit j), Finset.sum_add_distrib]
    rw [ih (fun x hx => hb x (List.mem_cons_of_mem _ hx)) i]
    by_cases he : e.1 = i
    · have hcond : ∀ j, (if e.1 = i ∧ e.2.1 = j then e.2.2 else 0)
          = (if e.2.1 = j then e.2.2 else 0) := by
        intro j
        by_cases h2 : e.2.1 = j <;> simp [he, h2]
      have h1 : (∑ j in Finset.range c, if e.1 = i ∧ e.2.1 = j then e.2.2 else 0) = e.2.2 := by
        rw [Finset.sum_congr rfl (fun j _ => hcond j),
          Finset.sum_ite_eq (Finset.range c) e.2.1 (fun _ => e.2.2),
          if_pos (Finset.mem_range.mpr (hb e (List.mem_cons_self _ _)))]
      rw [h1, List.filter_cons_of_pos (by simp [he])]
      simp

    · have h1 : (∑ j in Finset.range c, if e.1 = i ∧ e.2.1 = j then e.2.2 else 0) = 0 := by
        apply Finset.sum_eq_zero
        intro j _
        rw [if_neg (fun hc => he hc.1)]
      rw [h1, List.filter_cons_of_neg (by simp [he])]
      ring

theorem rowNormL1_eq_sum {m : SpMat} (hnn : NonnegData m) (i : Nat) :
    rowNormL1 m i = ((m.entries.filter (fun e => e.1 = i)).map (fun e => e.2.2)).sum := by
  unfold rowNormL1
  congr 1
  apply List.map_congr_left
  intro e he
  exact abs_of_nonneg (hnn e (List.mem_filter.mp he).1)

theorem list_sum_zero_of_nonneg {l : List ℚ} (h : ∀ x ∈ l, 0 ≤ x) (hs : l.sum = 0) :
    ∀ x ∈ l, x = 0 := by
  induction l with
  | nil => intro x hx; cases hx
  | cons a as ih =>
    intro x hx
    have ha : 0 ≤ a := h a (List.mem_cons_self _ _)
    have has : 0 ≤ as.sum := List.sum_nonneg (fun y hy => h y (List.mem_cons_of_mem _ hy))
    rw [List.sum_cons] at hs
    rcases List.mem_cons.mp hx with hx | hx
    · rw [hx]; linarith
    · exact ih (fun y hy => h y (List.mem_cons_of_mem _ hy)) (by linarith) x hx

theorem entriesVal_zero_of_row_zero {i : Nat} :
    ∀ {l : List (Nat × Nat × ℚ)}, (∀ e ∈ l, e.1 = i → e.2.2 = 0) →
      ∀ j, entriesVal l i j = 0 := by
  intro l
  induction l with
  | nil => intro _ j; rfl
  | cons e es ih =>
    intro h j
    show (if e.1 = i ∧ e.2.1 = j then e.2.2 else 0) + entriesVal es i j = 0
    rw [ih (fun x hx => h x (List.mem_cons_of_mem _ hx)) j]
    by_cases hc : e.1 = i ∧ e.2.1 = j
    · rw [if_pos hc, h e (List.mem_cons_self _ _) hc.1]
      ring
    · rw [if_neg hc]
      ring

theorem toFun_zero_of_norm_zero {m : SpMat} (hnn : NonnegData m) {i : Nat}
    (hz : rowNormL1 m i = 0) : ∀ j, m.toFun i j = 0 := by
  have hvals : ∀ e ∈ m.entries, e.1 = i → e.2.2 = 0 := by
    intro e he hei
    have h1 : |e.2.2| ∈ (m.entries.filter (fun x => x.1 = i)).map (fun x => |x.2.2|) :=
      List.mem_map.mpr ⟨e, List.mem_filter.mpr ⟨he, by simp [hei]⟩, rfl⟩
    have h2 : ∀ y ∈ (m.entries.filter (fun x => x.1 = i)).map (fun x => |x.2.2|), 0 ≤ y := by
      intro y hy
      obtain ⟨x, _, rfl⟩ := List.mem_map.mp hy
      exact abs_nonneg _
    exact abs_eq_zero.mp (list_sum_zero_of_nonneg h2 hz _ h1)
  exact entriesVal_zero_of_row_zero hvals

theorem entriesVal_rowNormalize_aux (m : SpMat) (i j : Nat) :
    ∀ (l : List (Nat × Nat × ℚ)),
      entriesVal (l.map (fun e =>
          if rowNormL1 m e.1 = 0 then e else (e.1, e.2.1, e.2.2 / rowNormL1 m e.1))) i j
        = if rowNormL1 m i = 0 then entriesVal l i j
          else entriesVal l i j / rowNormL1 m i := by
  intro l
  induction l with
  | nil =>
    show (0 : ℚ) = if rowNormL1 m i = 0 then (0 : ℚ) else 0 / rowNormL1 m i
    rw [zero_div]
    split <;> rfl
  | cons e es ih =>
    have hcons : entriesVal (e :: es) i j
        = (if e.1 = i ∧ e.2.1 = j then e.2.2 else 0) + entriesVal es i j := rfl
    rw [List.map_cons, hcons]
    by_cases hn : rowNormL1 m e.1 = 0
    · rw [if_pos hn]
      show (if e.1 = i ∧ e.2.1 = j then e.2.2 else 0)
          + entriesVal (es.map (fun e =>
              if rowNormL1 m e.1 = 0 then e
              else (e.1, e.2.1, e.2.2 / rowNormL1 m e.1))) i j = _
      rw [ih]
      by_cases hm : e.1 = i ∧ e.2.1 = j
      · have hni : rowNormL1 m i = 0 := by rw [← hm.1]; exact hn
        rw [if_pos hni, if_pos hni]
      · rw [if_neg hm]
        by_cases hni : rowNormL1 m i = 0
        · rw [if_pos hni, if_pos hni]
        · rw [if_neg hni, if_neg hni, add_div, zero_div]
    · rw [if_neg hn]
      show (if e.1 = i ∧ e.2.1 = j then e.2.2 / rowNormL1 m e.1 else 0)
          + entriesVal (es.map (fun e =>
              if rowNormL1 m e.1 = 0 then e
              else (e.1, e.2.1, e.2.2 / rowNormL1 m e.1))) i j = _
      rw [ih]
      by_cases hm : e.1 = i ∧ e.2.1 = j
      · have hni : rowNormL1 m i ≠ 0 := by rw [← hm.1]; exact hn
        rw [if_pos hm, if_pos hm, if_neg hni, if_neg hni, add_div]
        congr 2
        rw [hm.1]
      · rw [if_neg hm, if_neg hm]
        by_cases hni : rowNormL1 m i = 0
        · rw [if_pos hni, if_pos hni]
        · rw [if_neg hni, if_neg hni, add_div, zero_div]

theorem toFun_rowNormalize (m : SpMat) (i j : Nat) :
    (rowNormalize m).toFun i j
      = if rowNormL1 m i = 0 then m.toFun i j else m.toFun i j / rowNormL1 m i :=
  entriesVal_rowNormalize_aux m i j m.entries

theorem rowNormalize_rows {m : SpMat} (hnn : NonnegData m) (hcb : ColsBound m) (i : Nat) :
    ((∃ j, (rowNormalize m).toFun i j ≠ 0) →
      ((List.range (rowNormalize m).cols).map (fun j => (rowNormalize m).toFun i j)).sum = 1) ∧
    ((∀ j, m.toFun i j = 0) → ∀ j, (rowNormalize m).toFun i j = 0) := by
  constructor
  · rintro ⟨j0, hj0⟩
    rw [toFun_rowNormalize] at hj0
    have hm0 : m.toFun i j0 ≠ 0 := by
      intro hc
      rw [hc] at hj0
      revert hj0
      split <;> simp
    have hni : rowNormL1 m i ≠ 0 := fun hz => hm0 (toFun_zero_of_norm_zero hnn hz j0)
    have hcols : (rowNormalize m).cols = m.cols := rfl
    rw [hcols]
    have hpt : ∀ j, (rowNormalize m).toFun i j = m.toFun i j / rowNormL1 m i := by
      intro j
      rw [toFun_rowNormalize, if_neg hni]
    rw [List.map_congr_left (fun j _ => hpt j),
      listRangeSum_eq (fun j => m.toFun i j / rowNormL1 m i) m.cols, ← Finset.sum_div]
    have hsum : (∑ j in Finset.range m.cols, m.toFun i j)
        = ((m.entries.filter (fun e => e.1 = i)).map (fun e => e.2.2)).sum :=
      sum_range_entriesVal m.entries hcb i
    rw [hsum, ← rowNormL1_eq_sum hnn i]
    exact div_self hni
  · intro hz j
    rw [toFun_rowNormalize]
    split
    · exact hz j
    · rw [hz j, zero_div]

/-- C7: with normalize_items enabled and a nonnegative interaction
matrix (log transform nonnegative on nonnegative inputs, decay
nonnegative), every row of the returned co-occurrence matrix that has a
nonzero entry sums to exactly 1, and every row that is all-zero before
normalization (the matrix the builder returns with normalize_items
disabled) stays all-zero, with no division-by-zero failure. -/
theorem c7_normalize_rows (sampler : List ℚ → List ℚ) (logF : ℚ → ℚ) (obs : SpMat)
    (degree : Nat) (bmc pr dec mc : ℚ) (tf : String)
    (hobs : ∀ e ∈ obs.entries, 0 ≤ e.2.2)
    (hlog : ∀ v, 0 ≤ v → 0 ≤ logF v) (hdec : 0 ≤ dec) :
    ∀ R o, interactions_mat_to_cooccurrence_mat sampler logF obs true degree bmc pr dec mc tf
        = .ok (R, o) →
      (∀ i, (∃ j, R.toFun i j ≠ 0) →
        ((List.range R.cols).map (fun j => R.toFun i j)).sum = 1) ∧
      (∀ P o2, interactions_mat_to_cooccurrence_mat sampler logF obs false degree bmc pr dec
          mc tf = .ok (P, o2) →
        ∀ i, (∀ j, P.toFun i j = 0) → ∀ j, R.toFun i j = 0) := by
  intro R o hR
  unfold interactions_mat_to_cooccurrence_mat at hR
  cases hfd : first_degree_cooccurrence sampler logF tf obs bmc with
  | error e => rw [hfd] at hR; exact absurd hR (by simp)
  | ok p =>
    obtain ⟨base, mt⟩ := p
    rw [hfd] at hR
    injection hR with hR2
    have hRe : R = rowNormalize (if 1 < degree then addMat base
        (higherDegFinal sampler base degree pr dec mc) else base) := by
      have h3 := congrArg Prod.fst hR2
      rw [if_pos rfl] at h3
      exact h3.symm
    obtain ⟨hbn, hbc⟩ := nonneg_fdc_base hobs hlog hfd
    set P0 := (if 1 < degree then addMat base
        (higherDegFinal sampler base degree pr dec mc) else base) with hP0
    have hPn : NonnegData P0 := by
      rw [hP0]
      split
      · exact nonneg_addMat hbn (nonneg_higherDegFinal hbn hdec sampler degree pr mc)
      · exact hbn
    have hPc : ColsBound P0 := by
      rw [hP0]
      split
      · exact colsBound_addMat hbc
          (colsBound_higherDegFinal hbc sampler degree pr dec mc)
          (higherDegFinal_cols sampler base degree pr dec mc)
      · exact hbc
    constructor
    · intro i hex
      rw [hRe] at hex ⊢
      exact (rowNormalize_rows hPn hPc i).1 hex
    · intro P o2 hP i hPz j
      have hPeq : P = P0 := by
        unfold interactions_mat_to_cooccurrence_mat at hP
        rw [hfd] at hP
        injection hP with hP2
        have h3 := congrArg Prod.fst hP2
        rw [if_neg (by simp)] at h3
        exact h3.symm
      rw [hRe]
      have hz0 : ∀ j, P0.toFun i j = 0 := by
        rw [← hPeq]
        exact hPz
      exact (rowNormalize_rows hPn hPc i).2 hz0 j

/-- C7, witness: on the 3-user, 4-item example with trans_func "ones"
and normalization enabled, row 1 of the returned matrix (which has
nonzero entries) sums to exactly 1. -/
theorem c7_witness :
    ((List.range (SpMat.cols ⟨4, 4,
        [(0, 0, 0), (0, 1, 1), (1, 0, 1/2), (1, 1, 0), (1, 2, 1/2), (2, 1, 1/2),
         (2, 2, 0), (2, 3, 1/2), (3, 2, 1), (3, 3, 0)]⟩)).map
      (fun j => SpMat.toFun ⟨4, 4,
        [(0, 0, 0), (0, 1, 1), (1, 0, 1/2), (1, 1, 0), (1, 2, 1/2), (2, 1, 1/2),
         (2, 2, 0), (2, 3, 1/2), (3, 2, 1), (3, 3, 0)]⟩ 1 j)).sum = 1 :=
  ((c7_normalize_rows (fun l => l) (fun v => v)
      ⟨3, 4, [(0, 0, 1), (0, 1, 1), (1, 1, 1), (1, 2, 1), (2, 2, 1), (2, 3, 1)]⟩
      1 1 0 0 1 "ones" (by intro e he; fin_cases he <;> norm_num) (fun v hv => hv)
      (le_refl 0)
      ⟨4, 4, [(0, 0, 0), (0, 1, 1), (1, 0, 1/2), (1, 1, 0), (1, 2, 1/2), (2, 1, 1/2),
              (2, 2, 0), (2, 3, 1/2), (3, 2, 1), (3, 3, 0)]⟩
      ⟨3, 4, [(0, 0, 1), (0, 1, 1), (1, 1, 1), (1, 2, 1), (2, 2, 1), (2, 3, 1)]⟩
      (by with_unfolding_all decide)).1 1
    ⟨0, by with_unfolding_all decide⟩)

end MlRecsys
